import Mathlib

/- Shallow embedding of the ordering / grouping / filtering core of the
EmpressCards application.  The definitions below are translated from
src/src/App.jsx (the functions are byte-identical in
src/pdf-card-binder-desktop/src/App.jsx): `keyForCollection`,
`orderItemsInGroup`, `moveWithinGroup`, the pointer-drag commit logic,
the `filtered` / `sortedFlat` / `groupedByCollection` memos and the
`DEFAULT_COLLECTIONS` constant.  JavaScript objects keyed by strings are
modelled as functions `String → List String`; JS `Map` insertion-order
semantics are modelled explicitly on association lists. -/

namespace EmpressCards

/-- Models the JS check `isFav = (v) => v === true || v === "true" || v === 1`
applied to the loosely-typed `favorite` field. -/
inductive FavValue where
  | ofBool (b : Bool)
  | ofString (s : String)
  | ofNum (n : Nat)
  | undef
deriving Repr, DecidableEq

def isFav : FavValue → Bool
  | .ofBool b => b
  | .ofString s => s == "true"
  | .ofNum n => n == 1
  | .undef => false

/-- Card metadata record (the CardMeta typedef in App.jsx).  An empty string
models a missing/empty (falsy) `collection` or `tier`. -/
structure Card where
  id : String
  name : String
  tags : List String
  collection : String
  tier : String
  favorite : FavValue
  createdAt : Nat
  updatedAt : Nat
  pages : Nat
deriving Repr, DecidableEq

/-- Models the JS idiom `m.collection || "(None)"`. -/
def collectionOrNone (c : String) : String := if c = "" then "(None)" else c

/-- ASCII lowercasing of one character; JS toLowerCase restricted to the
ASCII range, which covers every collection name the app manipulates. -/
def lowerChar (c : Char) : Char :=
  if 'A' ≤ c ∧ c ≤ 'Z' then Char.ofNat (c.toNat + 32) else c

/-- Models `s.toLowerCase()`. -/
def jsToLower (s : String) : String := ⟨s.data.map lowerChar⟩

/-- Models `const keyForCollection = (c) => (c || "(None)").toLowerCase()`. -/
def keyForCollection (c : String) : String := jsToLower (collectionOrNone c)

/-- The persisted per-group order map; a missing key reads as the empty list,
matching `orderMap[key] || []`. -/
def OrderMap := String → List String

def emptyOrderMap : OrderMap := fun _ => []

/-- Models the object-spread write `{ ...orderMap, [key]: ids }`. -/
def updateMap (om : OrderMap) (key : String) (ids : List String) : OrderMap :=
  fun k => if k = key then ids else om k

/-- One insertion into a JS `Map` keyed by card id: a duplicate key keeps its
original position but its value is overwritten; a new key is appended. -/
def mapInsert (acc : List Card) (m : Card) : List Card :=
  if acc.any (fun x => x.id == m.id) then
    acc.map (fun x => if x.id == m.id then m else x)
  else acc ++ [m]

/-- Models `new Map(items.map(m => [m.id, m]))` as an insertion-ordered list
of cards with pairwise-distinct ids. -/
def mapFromItems (items : List Card) : List Card :=
  items.foldl mapInsert []

/-- One iteration of the `idsOrder.forEach` loop in `orderItemsInGroup`:
state is (out, byId); if `byId` still holds `id`, the matching card is pushed
onto `out` and deleted from `byId`. -/
def takeStep (s : List Card × List Card) (id : String) : List Card × List Card :=
  match s.2.find? (fun m => m.id == id) with
  | some m => (s.1 ++ [m], s.2.filter (fun x => x.id != id))
  | none => s

/-- The comparator `(a,b) => (a.createdAt||0)-(b.createdAt||0)` viewed as a
boolean "less or equal" for the stable JS Array.prototype.sort. -/
def resolveLe (a b : Card) : Bool := decide (a.createdAt ≤ b.createdAt)

/-- Models `orderItemsInGroup(orderMap, groupName, items)`: walk the persisted
id list extracting surviving members, then append the never-listed members
sorted (stably) by ascending `createdAt`. -/
def orderItemsInGroup (orderMap : OrderMap) (groupName : String)
    (items : List Card) : List Card :=
  let key := keyForCollection groupName
  let idsOrder := orderMap key
  let byId := mapFromItems items
  let s := idsOrder.foldl takeStep ([], byId)
  s.1 ++ s.2.mergeSort resolveLe

/-- The authoritative member ids of a group, computed fresh from metadata:
models `metas.filter(m => (m.collection || "(None)") === groupName).map(m => m.id)`. -/
def groupMemberIds (metas : List Card) (groupName : String) : List String :=
  (metas.filter (fun m => collectionOrNone m.collection == groupName)).map Card.id

/-- The id-list computation inside `moveWithinGroup` (everything between
reading `currentIds` and the `persistOrder` write), named so that its
properties can be stated once.  JS `ids.indexOf(targetId)` returning -1
corresponds to the `none` branch of `findIdx?`, and
`ids.splice(insertAt, 0, draggedId)` is an insertion at `insertAt`. -/
def moveIds (groupIds currentIds : List String) (draggedId targetId : String)
    (placeBefore : Bool) : List String :=
  let ids0 := currentIds.filter (fun id => groupIds.contains id)
  let ids1 := if ids0.isEmpty then groupIds else ids0
  let ids2 := ids1.filter (fun id => id != draggedId)
  let insertAt :=
    match ids2.findIdx? (fun id => id == targetId) with
    | none => ids2.length
    | some i => if placeBefore then i else i + 1
  let ids3 := ids2.insertIdx insertAt draggedId
  ids3.filter (fun id => groupIds.contains id)

/-- Models `moveWithinGroup(groupName, draggedId, targetId, placeBefore)` from
App.jsx, acting on an explicit order map and metadata snapshot: the fresh
authoritative member ids and the persisted list for the group key are fed to
the reorder computation and the result is written back at that key. -/
def moveWithinGroup (orderMap : OrderMap) (metas : List Card) (groupName : String)
    (draggedId targetId : String) (placeBefore : Bool) : OrderMap :=
  let key := keyForCollection groupName
  updateMap orderMap key
    (moveIds (groupMemberIds metas groupName) (orderMap key) draggedId targetId placeBefore)

/-- Drag-gesture state, `{ active, id, group }` in App.jsx. -/
structure DragState where
  active : Bool
  id : String
  group : String
deriving Repr, DecidableEq

/-- Drop-target state, `{ id, pos }`; `pos = some true` models `"before"`,
`some false` models `"after"`, `none` models `null`. -/
structure DropTarget where
  id : String
  pos : Option Bool
deriving Repr, DecidableEq

/-- What the DOM hit-test under the pointer reports for the hovered card
element: its `data-card-id`, its `data-card-group` attribute (set to
`m.collection || "(None)"`), and whether the pointer is in its left half. -/
structure HoveredCard where
  cardId : String
  cardGroup : String
  beforeHalf : Bool
deriving Repr, DecidableEq

/-- The drop-target decision of `handlePointerMove`: no element, an empty id,
or a group different from the dragged card's clears the target. -/
def handlePointerMoveTarget (dragging : DragState) (hover : Option HoveredCard) :
    DropTarget :=
  match hover with
  | none => ⟨"", none⟩
  | some h =>
    if h.cardId == "" || h.cardGroup != dragging.group then ⟨"", none⟩
    else ⟨h.cardId, some h.beforeHalf⟩

/-- The commit decision of `handlePointerUp`: `moveWithinGroup` runs only when
a drag is active with a nonempty, non-self drop target carrying a position. -/
def handlePointerUpCommit (orderMap : OrderMap) (metas : List Card)
    (dragging : DragState) (dropTarget : DropTarget) : OrderMap :=
  if dragging.active && dropTarget.id != "" && dropTarget.pos.isSome
      && dropTarget.id != dragging.id then
    moveWithinGroup orderMap metas dragging.group dragging.id dropTarget.id
      (dropTarget.pos == some true)
  else orderMap

/-- The drag state captured on pointer-down of card `m`:
`setDragging({ active:true, id:m.id, group: m.collection || "(None)" })`. -/
def dragStateFor (m : Card) : DragState :=
  ⟨true, m.id, collectionOrNone m.collection⟩

/-- The hit-test report for hovering card `t` (its `data-card-id` and
`data-card-group` attributes) with pointer half `b`. -/
def hoverFor (t : Card) (b : Bool) : HoveredCard :=
  ⟨t.id, collectionOrNone t.collection, b⟩

/- Concrete fixtures used by the example-based claims. -/

def cardA : Card := ⟨"a", "Alpha", [], "g", "", .undef, 1, 1, 1⟩

def cardB : Card := ⟨"b", "Beta", [], "g", "", .undef, 2, 2, 1⟩

def cardC : Card := ⟨"c", "Gamma", [], "g", "", .undef, 3, 3, 1⟩

def abcMetas : List Card := [cardA, cardB, cardC]

def abcOrder : OrderMap := updateMap emptyOrderMap "g" ["a", "b", "c"]

/-- Order map whose persisted list for group "g" is stale: it tracks only
cards a and b, while c is also an authoritative member. -/
def staleOrder : OrderMap := updateMap emptyOrderMap "g" ["a", "b"]

/- Reduction lemmas for the forEach walk of orderItemsInGroup. -/

theorem takeStep_of_none {out byId : List Card} {i : String}
    (h : byId.find? (fun m => m.id == i) = none) :
    takeStep (out, byId) i = (out, byId) := by
  simp [takeStep, h]

theorem takeStep_of_some {out byId : List Card} {i : String} {m : Card}
    (h : byId.find? (fun m => m.id == i) = some m) :
    takeStep (out, byId) i = (out ++ [m], byId.filter (fun x => x.id != i)) := by
  simp [takeStep, h]

/-- Extracting the found card from a list with pairwise-distinct ids is a
permutation-preserving split. -/
theorem find_extract_perm {i : String} {byId : List Card} {m : Card}
    (hnd : (byId.map Card.id).Nodup)
    (hf : byId.find? (fun x => x.id == i) = some m) :
    byId.Perm (m :: byId.filter (fun x => x.id != i)) := by
  induction byId with
  | nil => simp at hf
  | cons x xs ih =>
    simp only [List.map_cons, List.nodup_cons] at hnd
    by_cases hx : x.id = i
    · rw [List.find?_cons_of_pos _ (by simp [hx])] at hf
      obtain rfl : x = m := by injection hf
      have hfil : (x :: xs).filter (fun y => y.id != i) = xs := by
        rw [List.filter_cons, if_neg (by simp [hx])]
        apply List.filter_eq_self.mpr
        intro y hy
        simp only [bne_iff_ne, ne_eq]
        intro hyi
        have hmem : y.id ∈ xs.map Card.id := List.mem_map_of_mem Card.id hy
        rw [hyi, ← hx] at hmem
        exact hnd.1 hmem
      rw [hfil]
    · rw [List.find?_cons_of_neg _ (by simp [hx])] at hf
      have ih' := ih hnd.2 hf
      rw [List.filter_cons, if_pos (by simp [hx] : (x.id != i) = true)]
      exact List.Perm.trans (ih'.cons x) (List.Perm.swap m x _)

/-- The forEach walk never loses or duplicates a card: out ++ remaining is a
permutation of the initial accumulator and map contents. -/
theorem takeSteps_perm (idsOrder : List String) :
    ∀ out byId : List Card, (byId.map Card.id).Nodup →
      ((idsOrder.foldl takeStep (out, byId)).1 ++
        (idsOrder.foldl takeStep (out, byId)).2).Perm (out ++ byId) := by
  induction idsOrder with
  | nil =>
    intro out byId _
    simp
  | cons i rest ih =>
    intro out byId hnd
    rw [List.foldl_cons]
    cases hf : byId.find? (fun m => m.id == i) with
    | none =>
      rw [takeStep_of_none hf]
      exact ih out byId hnd
    | some m =>
      rw [takeStep_of_some hf]
      have hnd' : ((byId.filter (fun x => x.id != i)).map Card.id).Nodup :=
        ((List.filter_sublist byId).map Card.id).nodup hnd
      refine (ih (out ++ [m]) (byId.filter (fun x => x.id != i)) hnd').trans ?_
      have h2 := find_extract_perm hnd hf
      have he : (out ++ [m]) ++ byId.filter (fun x => x.id != i)
          = out ++ (m :: byId.filter (fun x => x.id != i)) := by simp
      rw [he]
      exact List.Perm.append_left out h2.symm

/-- Inserting items with pairwise-distinct ids into the JS Map leaves the
list unchanged. -/
theorem foldl_mapInsert_eq_append (items : List Card) :
    ∀ acc : List Card, ((acc ++ items).map Card.id).Nodup →
      items.foldl mapInsert acc = acc ++ items := by
  induction items with
  | nil =>
    intro acc _
    simp
  | cons m rest ih =>
    intro acc hnd
    rw [List.foldl_cons]
    have hnotin : acc.any (fun x => x.id == m.id) = false := by
      rw [List.any_eq_false]
      intro x hx
      simp only [beq_iff_eq]
      intro he
      have hnd' := hnd
      rw [List.map_append, List.nodup_append] at hnd'
      obtain ⟨-, -, hdisj⟩ := hnd'
      exact hdisj (List.mem_map_of_mem Card.id hx) (by rw [he]; simp)
    rw [show mapInsert acc m = acc ++ [m] by simp [mapInsert, hnotin]]
    rw [ih (acc ++ [m]) (by simpa [List.append_assoc] using hnd)]
    simp

theorem mapFromItems_eq_self (items : List Card)
    (h : (items.map Card.id).Nodup) : mapFromItems items = items := by
  simpa using foldl_mapInsert_eq_append items [] (by simpa using h)

/-- C1: for every group key, every member list with pairwise-distinct ids and
every persisted order list (possibly stale, with foreign ids or duplicates),
the output of Resolve (orderItemsInGroup) is a permutation of exactly the
authoritative members: each member appears exactly once and no foreign card
appears. -/
theorem resolve_perm_of_members (om : OrderMap) (g : String) (items : List Card)
    (h : (items.map Card.id).Nodup) :
    (orderItemsInGroup om g items).Perm items := by
  unfold orderItemsInGroup
  have hM : mapFromItems items = items := mapFromItems_eq_self items h
  have h1 := takeSteps_perm (om (keyForCollection g)) [] (mapFromItems items)
    (by rw [hM]; exact h)
  have h2 : ((((om (keyForCollection g)).foldl takeStep ([], mapFromItems items)).2).mergeSort
      resolveLe).Perm (((om (keyForCollection g)).foldl takeStep ([], mapFromItems items)).2) :=
    List.mergeSort_perm _ _
  refine (List.Perm.append_left _ h2).trans (h1.trans ?_)
  rw [hM]
  simp

/-- C1 witness: a concrete stale, foreign-id-bearing, duplicate-bearing
persisted list still resolves to a permutation of the three members. -/
theorem resolve_perm_of_members_witness :
    ((abcMetas.map Card.id).Nodup) ∧
      (orderItemsInGroup (updateMap emptyOrderMap "g" ["z", "b", "b", "q"]) "g"
        abcMetas).Perm abcMetas :=
  ⟨by decide, resolve_perm_of_members _ "g" abcMetas (by decide)⟩

/-- C5: on working order [A,B,C] (all authoritative members of group g),
Move(g, C, A, placeBefore=true) persists [C,A,B] and
Move(g, A, C, placeBefore=false) persists [B,C,A]. -/
theorem move_relative_position :
    (moveWithinGroup abcOrder abcMetas "g" "c" "a" true) (keyForCollection "g")
        = ["c", "a", "b"] ∧
      (moveWithinGroup abcOrder abcMetas "g" "a" "c" false) (keyForCollection "g")
        = ["b", "c", "a"] := by
  constructor <;> decide

/- Lemmas about the move computation. -/

theorem findIdx?_some_lt {α : Type} (p : α → Bool) :
    ∀ (l : List α) (s j : Nat), l.findIdx? p s = some j → j < s + l.length := by
  intro l
  induction l with
  | nil =>
    intro s j h
    simp [List.findIdx?] at h
  | cons a as ih =>
    intro s j h
    rw [List.findIdx?_cons] at h
    by_cases hp : p a = true
    · rw [if_pos hp] at h
      injection h with h
      simp only [List.length_cons]
      omega
    · rw [if_neg hp] at h
      have h2 := ih (s + 1) j h
      simp only [List.length_cons]
      omega

/-- The splice position computed inside moveIds never exceeds the working
list's length (JS splice would clamp; here no clamping is ever needed). -/
theorem moveIds_pos_le (ids2 : List String) (t : String) (b : Bool) :
    (match ids2.findIdx? (fun id => id == t) with
      | none => ids2.length
      | some i => if b then i else i + 1) ≤ ids2.length := by
  cases hf : ids2.findIdx? (fun id => id == t) with
  | none => simp
  | some i =>
    have hi : i < 0 + ids2.length := findIdx?_some_lt _ ids2 0 i hf
    have hi' : i < ids2.length := by omega
    cases b
    · simpa using hi'
    · simpa using Nat.le_of_lt hi'

/-- What moveIds really preserves: its output never mentions a non-member id
and is a permutation of all member ids when the persisted list tracks no
surviving member, and of the dragged id plus the surviving persisted member
ids otherwise. -/
theorem moveIds_mem_and_perm (groupIds cur : List String) (d t : String) (b : Bool)
    (hgnd : groupIds.Nodup) (hd : d ∈ groupIds) :
    (∀ i ∈ moveIds groupIds cur d t b, i ∈ groupIds) ∧
    (moveIds groupIds cur d t b).Perm
      (if (cur.filter (fun i => groupIds.contains i)).isEmpty then groupIds
       else d :: (cur.filter (fun i => groupIds.contains i)).filter (fun i => i != d)) := by
  have hdc : groupIds.contains d = true := by simp [hd]
  unfold moveIds
  set ids0 := cur.filter (fun i => groupIds.contains i) with hids0
  set ids1 := (if ids0.isEmpty then groupIds else ids0) with hids1
  set ids2 := ids1.filter (fun i => i != d) with hids2
  set pos := (match ids2.findIdx? (fun i => i == t) with
    | none => ids2.length
    | some i => if b then i else i + 1) with hpos
  have hpos_le : pos ≤ ids2.length := by
    rw [hpos]
    exact moveIds_pos_le ids2 t b
  have hperm3 : (ids2.insertIdx pos d).Perm (d :: ids2) :=
    List.perm_insertIdx d ids2 hpos_le
  have hsub2 : ∀ i ∈ ids2, i ∈ groupIds := by
    intro i hi
    rw [hids2] at hi
    have hi1 := (List.mem_filter.mp hi).1
    rw [hids1] at hi1
    by_cases he : ids0.isEmpty
    · rw [if_pos he] at hi1
      exact hi1
    · rw [if_neg he] at hi1
      rw [hids0] at hi1
      have := (List.mem_filter.mp hi1).2
      simpa using this
  have hall3 : ∀ i ∈ ids2.insertIdx pos d, groupIds.contains i = true := by
    intro i hi
    rcases List.mem_cons.mp ((hperm3.mem_iff).mp hi) with rfl | hi2
    · exact hdc
    · simp [hsub2 i hi2]
  have hfil : (ids2.insertIdx pos d).filter (fun i => groupIds.contains i)
      = ids2.insertIdx pos d :=
    List.filter_eq_self.mpr hall3
  rw [hfil]
  constructor
  · intro i hi
    have := hall3 i hi
    simpa using this
  · refine hperm3.trans ?_
    by_cases he : ids0.isEmpty
    · rw [if_pos he]
      have h2 : ids2 = groupIds.filter (fun i => i != d) := by
        rw [hids2, hids1, if_pos he]
      rw [h2, ← List.Nodup.erase_eq_filter hgnd d]
      exact (List.perm_cons_erase hd).symm
    · rw [if_neg he]
      have h2 : ids2 = ids0.filter (fun i => i != d) := by
        rw [hids2, hids1, if_neg he]
      rw [h2]

/-- Reading the moved group's key after a move yields exactly the moveIds
computation on fresh member ids and the previously persisted list. -/
theorem moveWithinGroup_at_key (om : OrderMap) (metas : List Card) (g d t : String)
    (b : Bool) :
    (moveWithinGroup om metas g d t b) (keyForCollection g)
      = moveIds (groupMemberIds metas g) (om (keyForCollection g)) d t b := by
  unfold moveWithinGroup updateMap
  simp

/-- C2 counterexample: members a,b,c of group g with stale persisted list
[a,b]; Move(g, a, b, true) persists [a,b], which is not a permutation of the
authoritative member ids [a,b,c] — member c, absent from the persisted list,
is dropped. -/
theorem move_membership_cex :
    ¬ ((moveWithinGroup staleOrder abcMetas "g" "a" "b" true) (keyForCollection "g")).Perm
        (groupMemberIds abcMetas "g") := by
  decide

/-- C2 amended: for a valid Move call (distinct authoritative ids, dragged id
a member), the new persisted list never contains a non-member id, and it is a
permutation of all authoritative member ids when the previously persisted
list retains no member, and otherwise of the dragged id plus the previously
persisted ids that are still members (minus the dragged id) — so members
absent from a nonempty persisted list stay absent rather than being
re-added. -/
theorem move_preserves_tracked_membership (om : OrderMap) (metas : List Card)
    (g d t : String) (b : Bool)
    (hnd : (metas.map Card.id).Nodup)
    (hd : d ∈ groupMemberIds metas g) :
    (∀ i ∈ (moveWithinGroup om metas g d t b) (keyForCollection g),
        i ∈ groupMemberIds metas g) ∧
    ((moveWithinGroup om metas g d t b) (keyForCollection g)).Perm
      (if ((om (keyForCollection g)).filter
            (fun i => (groupMemberIds metas g).contains i)).isEmpty
       then groupMemberIds metas g
       else d :: ((om (keyForCollection g)).filter
            (fun i => (groupMemberIds metas g).contains i)).filter
              (fun i => i != d)) := by
  have hgnd : (groupMemberIds metas g).Nodup := by
    unfold groupMemberIds
    exact ((List.filter_sublist metas).map Card.id).nodup hnd
  rw [moveWithinGroup_at_key]
  exact moveIds_mem_and_perm _ _ d t b hgnd hd

/-- C2 amended witness: concrete stale-move instance of the amended claim. -/
theorem move_preserves_tracked_membership_witness :
    ((abcMetas.map Card.id).Nodup ∧ "a" ∈ groupMemberIds abcMetas "g") ∧
    ((∀ i ∈ (moveWithinGroup staleOrder abcMetas "g" "a" "b" true) (keyForCollection "g"),
        i ∈ groupMemberIds abcMetas "g") ∧
      ((moveWithinGroup staleOrder abcMetas "g" "a" "b" true) (keyForCollection "g")).Perm
        (if ((staleOrder (keyForCollection "g")).filter
              (fun i => (groupMemberIds abcMetas "g").contains i)).isEmpty
         then groupMemberIds abcMetas "g"
         else "a" :: ((staleOrder (keyForCollection "g")).filter
              (fun i => (groupMemberIds abcMetas "g").contains i)).filter
                (fun i => i != "a"))) :=
  ⟨⟨by decide, by decide⟩,
    move_preserves_tracked_membership staleOrder abcMetas "g" "a" "b" true
      (by decide) (by decide)⟩

/-- C3: when the hovered card's group differs from the dragged card's group,
the pointer pipeline clears the drop target and the pointer-up commit leaves
the whole persisted order map (in particular both groups' lists) unchanged. -/
theorem cross_group_drop_noop (om : OrderMap) (metas : List Card) (d t : Card)
    (b : Bool)
    (h : collectionOrNone t.collection ≠ collectionOrNone d.collection) :
    handlePointerUpCommit om metas (dragStateFor d)
      (handlePointerMoveTarget (dragStateFor d) (some (hoverFor t b))) = om := by
  unfold handlePointerMoveTarget handlePointerUpCommit dragStateFor hoverFor
  simp [h]

/-- Card in a different group, used by the cross-group witness. -/
def cardZ : Card := ⟨"z", "Zed", [], "h", "", .undef, 4, 4, 1⟩

/-- C3 witness: dragging card a (group g) and dropping onto card z (group h)
leaves the order map untouched. -/
theorem cross_group_drop_noop_witness :
    (collectionOrNone cardZ.collection ≠ collectionOrNone cardA.collection) ∧
      handlePointerUpCommit abcOrder abcMetas (dragStateFor cardA)
        (handlePointerMoveTarget (dragStateFor cardA) (some (hoverFor cardZ true)))
        = abcOrder :=
  ⟨by decide, cross_group_drop_noop abcOrder abcMetas cardA cardZ true (by decide)⟩

/-- C10: a move writes at most the single key derived from the named group;
every other key of the persisted order map reads unchanged. -/
theorem move_frame (om : OrderMap) (metas : List Card) (g d t : String) (b : Bool)
    (k : String) (hk : k ≠ keyForCollection g) :
    (moveWithinGroup om metas g d t b) k = om k := by
  unfold moveWithinGroup updateMap
  simp [hk]

/-- C10 witness: a concrete move in group g leaves key "other" unchanged. -/
theorem move_frame_witness :
    ("other" ≠ keyForCollection "g") ∧
      (moveWithinGroup abcOrder abcMetas "g" "c" "a" true) "other" = abcOrder "other" :=
  ⟨by decide, move_frame abcOrder abcMetas "g" "c" "a" true "other" (by decide)⟩

/- Lemmas for idempotence and the append policy of Resolve. -/

theorem updateMap_at (om : OrderMap) (key : String) (ids : List String) :
    (updateMap om key ids) key = ids := by
  unfold updateMap
  simp

/-- Unfolding equation for orderItemsInGroup. -/
theorem orderItemsInGroup_eq (om : OrderMap) (g : String) (items : List Card) :
    orderItemsInGroup om g items
      = ((om (keyForCollection g)).foldl takeStep ([], mapFromItems items)).1
        ++ ((om (keyForCollection g)).foldl takeStep ([], mapFromItems items)).2.mergeSort
            resolveLe := rfl

/-- The JS Map construction always yields pairwise-distinct ids. -/
theorem mapInsert_ids_nodup (items : List Card) :
    ∀ acc : List Card, (acc.map Card.id).Nodup →
      ((items.foldl mapInsert acc).map Card.id).Nodup := by
  induction items with
  | nil =>
    intro acc h
    simpa using h
  | cons m rest ih =>
    intro acc h
    rw [List.foldl_cons]
    apply ih
    by_cases hm : acc.any (fun x => x.id == m.id) = true
    · rw [show mapInsert acc m = acc.map (fun x => if x.id == m.id then m else x) from by
        simp [mapInsert, hm]]
      have hmap : (acc.map (fun x => if x.id == m.id then m else x)).map Card.id
          = acc.map Card.id := by
        rw [List.map_map]
        apply List.map_congr_left
        intro x hx
        by_cases hxi : (x.id == m.id) = true
        · simp only [Function.comp_apply, if_pos hxi]
          exact (by simpa using hxi : x.id = m.id).symm
        · have hne : ¬ x.id = m.id := by simpa using hxi
          simp [Function.comp_apply, hne]
      rw [hmap]
      exact h
    · rw [show mapInsert acc m = acc ++ [m] from by simp [mapInsert, hm]]
      rw [List.map_append, List.nodup_append]
      refine ⟨h, by simp, ?_⟩
      intro a ha hmem
      rw [Bool.not_eq_true, List.any_eq_false] at hm
      obtain ⟨x, hx, rfl⟩ := List.mem_map.mp ha
      have : x.id = m.id := by simpa using hmem
      exact hm x hx (by simpa using this)

theorem mapFromItems_ids_nodup (items : List Card) :
    ((mapFromItems items).map Card.id).Nodup :=
  mapInsert_ids_nodup items [] (by simp)

/-- Walking ids that enumerate a permutation of the map's contents extracts
every card, in exactly the walked order, and empties the map. -/
theorem takeSteps_consume :
    ∀ (r out byId : List Card), (byId.map Card.id).Nodup → byId.Perm r →
      (r.map Card.id).foldl takeStep (out, byId) = (out ++ r, []) := by
  intro r
  induction r with
  | nil =>
    intro out byId hnd hperm
    have : byId = [] := hperm.eq_nil
    subst this
    simp
  | cons r0 rs ih =>
    intro out byId hnd hperm
    rw [List.map_cons, List.foldl_cons]
    have hr0 : r0 ∈ byId := hperm.mem_iff.mpr (List.mem_cons_self r0 rs)
    have hnd2 : ((r0 :: rs).map Card.id).Nodup := (hperm.map Card.id).nodup hnd
    have hfs : byId.find? (fun m => m.id == r0.id) = some r0 := by
      cases hf : byId.find? (fun m => m.id == r0.id) with
      | none =>
        rw [List.find?_eq_none] at hf
        exact absurd (by simp : (r0.id == r0.id) = true) (hf r0 hr0)
      | some m =>
        have hm := List.mem_of_find?_eq_some hf
        have hmid : m.id = r0.id := by simpa using List.find?_some hf
        rw [List.inj_on_of_nodup_map hnd hm hr0 hmid]
    rw [takeStep_of_some hfs]
    have hfperm : (byId.filter (fun x => x.id != r0.id)).Perm rs := by
      have h1 := hperm.filter (fun x => x.id != r0.id)
      have h2 : (r0 :: rs).filter (fun x => x.id != r0.id) = rs := by
        rw [List.filter_cons, if_neg (by simp)]
        apply List.filter_eq_self.mpr
        intro y hy
        simp only [bne_iff_ne, ne_eq]
        intro he
        simp only [List.map_cons, List.nodup_cons] at hnd2
        exact hnd2.1 (he ▸ List.mem_map_of_mem Card.id hy)
      rwa [h2] at h1
    have hnd3 : ((byId.filter (fun x => x.id != r0.id)).map Card.id).Nodup :=
      ((List.filter_sublist byId).map Card.id).nodup hnd
    rw [ih (out ++ [r0]) _ hnd3 hfperm]
    simp

/-- C8: Resolve is idempotent under round-trip: persisting the id sequence of
a fresh Resolve and resolving again returns the same list. -/
theorem resolve_roundtrip_idempotent (g : String) (members : List Card) :
    orderItemsInGroup
        (updateMap emptyOrderMap (keyForCollection g)
          ((orderItemsInGroup emptyOrderMap g members).map Card.id))
        g members
      = orderItemsInGroup emptyOrderMap g members := by
  have hM : ((mapFromItems members).map Card.id).Nodup := mapFromItems_ids_nodup members
  have hinner : orderItemsInGroup emptyOrderMap g members
      = (mapFromItems members).mergeSort resolveLe := by
    rw [orderItemsInGroup_eq]
    simp [emptyOrderMap]
  rw [hinner, orderItemsInGroup_eq, updateMap_at]
  rw [takeSteps_consume ((mapFromItems members).mergeSort resolveLe) [] (mapFromItems members)
    hM (List.mergeSort_perm _ _).symm]
  simp

/- Characterization of the two segments produced by the Resolve walk. -/

theorem takeSteps_fst_mem (idsOrder : List String) :
    ∀ (out byId : List Card) (m : Card),
      m ∈ (idsOrder.foldl takeStep (out, byId)).1 → m ∈ out ∨ m.id ∈ idsOrder := by
  induction idsOrder with
  | nil =>
    intro out byId m hm
    left
    simpa using hm
  | cons i rest ih =>
    intro out byId m hm
    rw [List.foldl_cons] at hm
    cases hf : byId.find? (fun x => x.id == i) with
    | none =>
      rw [takeStep_of_none hf] at hm
      rcases ih out byId m hm with h | h
      · exact Or.inl h
      · exact Or.inr (List.mem_cons_of_mem i h)
    | some x =>
      rw [takeStep_of_some hf] at hm
      rcases ih _ _ m hm with h | h
      · rcases List.mem_append.mp h with h1 | h1
        · exact Or.inl h1
        · right
          have hx : x.id = i := by simpa using List.find?_some hf
          have hmx : m = x := by simpa using h1
          rw [hmx, hx]
          exact List.mem_cons_self i rest
      · exact Or.inr (List.mem_cons_of_mem i h)

theorem takeSteps_snd (idsOrder : List String) :
    ∀ (out byId : List Card),
      (idsOrder.foldl takeStep (out, byId)).2
        = byId.filter (fun m => !idsOrder.contains m.id) := by
  induction idsOrder with
  | nil =>
    intro out byId
    simp
  | cons i rest ih =>
    intro out byId
    rw [List.foldl_cons]
    cases hf : byId.find? (fun x => x.id == i) with
    | none =>
      rw [takeStep_of_none hf, ih out byId]
      apply List.filter_congr
      intro x hx
      rw [List.find?_eq_none] at hf
      have hne : ¬ x.id = i := by simpa using hf x hx
      simp [List.contains_cons, hne]
    | some m =>
      rw [takeStep_of_some hf, ih]
      rw [List.filter_filter]
      apply List.filter_congr
      intro x hx
      by_cases hxi : x.id = i <;> simp [List.contains_cons, hxi, Bool.and_comm]

theorem resolveLe_trans :
    ∀ a b c : Card, resolveLe a b = true → resolveLe b c = true → resolveLe a c = true := by
  intro a b c hab hbc
  simp only [resolveLe, decide_eq_true_iff] at hab hbc ⊢
  omega

theorem resolveLe_total : ∀ a b : Card, (resolveLe a b || resolveLe b a) = true := by
  intro a b
  simp only [resolveLe, Bool.or_eq_true, decide_eq_true_iff]
  omega

/-- C4: Resolve's output splits into a segment of members whose id occurs in
the persisted order list followed by exactly the members absent from it; the
trailing segment is sorted by ascending createdAt, is a permutation of the
absent members in member-list insertion order, and ties on createdAt keep
that insertion order (stability). -/
theorem resolve_append_policy (om : OrderMap) (g : String) (items : List Card) :
    ∃ pre,
      orderItemsInGroup om g items
          = pre ++ ((mapFromItems items).filter
              (fun m => !(om (keyForCollection g)).contains m.id)).mergeSort resolveLe ∧
      (∀ m ∈ pre, m.id ∈ om (keyForCollection g)) ∧
      (((mapFromItems items).filter
          (fun m => !(om (keyForCollection g)).contains m.id)).mergeSort resolveLe).Pairwise
        (fun a b => a.createdAt ≤ b.createdAt) ∧
      (((mapFromItems items).filter
          (fun m => !(om (keyForCollection g)).contains m.id)).mergeSort resolveLe).Perm
        ((mapFromItems items).filter
          (fun m => !(om (keyForCollection g)).contains m.id)) ∧
      (∀ a b : Card, a.createdAt = b.createdAt →
        [a, b].Sublist ((mapFromItems items).filter
          (fun m => !(om (keyForCollection g)).contains m.id)) →
        [a, b].Sublist (((mapFromItems items).filter
          (fun m => !(om (keyForCollection g)).contains m.id)).mergeSort resolveLe)) := by
  refine ⟨((om (keyForCollection g)).foldl takeStep ([], mapFromItems items)).1,
    ?_, ?_, ?_, List.mergeSort_perm _ _, ?_⟩
  · rw [orderItemsInGroup_eq, takeSteps_snd]
  · intro m hm
    rcases takeSteps_fst_mem _ _ _ m hm with h | h
    · simp at h
    · exact h
  · exact (List.sorted_mergeSort resolveLe_trans resolveLe_total _).imp
      (fun h => of_decide_eq_true h)
  · intro a b hab hsub
    refine List.sublist_mergeSort resolveLe_trans resolveLe_total ?_ hsub
    simp [resolveLe, hab]

/- The filter pipeline (the `filtered` memo). -/

/-- Character-level test that `s` starts with `q`, the base case of the
substring search behind JS String.prototype.includes. -/
def charsStartWith : List Char → List Char → Bool
  | [], _ => true
  | _ :: _, [] => false
  | a :: as, b :: bs => a == b && charsStartWith as bs

/-- Character-level substring containment: some suffix of `s` starts with
`q`.  Models `s.includes(q)`. -/
def charsContain (q : List Char) : List Char → Bool
  | [] => charsStartWith q []
  | c :: rest => charsStartWith q (c :: rest) || charsContain q rest

/-- Models `s.includes(q)` on strings. -/
def jsIncludes (s q : String) : Bool := charsContain q.data s.data

/-- The UI filter criteria: free-text query, active tag, active collection,
active tier and the favorites-only flag. -/
structure FilterCriteria where
  query : String
  activeTag : String
  activeCollection : String
  activeTier : String
  favoritesOnly : Bool
deriving Repr, DecidableEq

/-- Models the per-card body of the `filtered` memo in App.jsx:
`q = query.trim().toLowerCase()` and the five conjoined criteria
okQ/okTag/okCol/okTier/okFav. -/
def matchesFilter (c : FilterCriteria) (m : Card) : Bool :=
  let q := jsToLower c.query.trim
  let tags := m.tags
  let col := m.collection
  let tier := m.tier
  let fav := isFav m.favorite
  let okQ := q == "" || jsIncludes (jsToLower m.name) q
      || tags.any (fun t => jsIncludes (jsToLower t) q)
  let okTag := c.activeTag == "" || tags.contains c.activeTag
  let okCol := c.activeCollection == "" || col == c.activeCollection
  let okTier := c.activeTier == "" || tier == c.activeTier
  let okFav := !c.favoritesOnly || fav
  okQ && okTag && okCol && okTier && okFav

/-- Models `metas.filter(...)`. -/
def filteredCards (c : FilterCriteria) (metas : List Card) : List Card :=
  metas.filter (matchesFilter c)

/-- Spec-side reading of the filter predicate: one clause per criterion,
with substring containment spelled as an explicit decomposition. -/
def MatchesSpec (c : FilterCriteria) (m : Card) : Prop :=
  (jsToLower c.query.trim = ""
      ∨ (∃ l r : List Char,
          (jsToLower m.name).data = l ++ (jsToLower c.query.trim).data ++ r)
      ∨ ∃ tg ∈ m.tags, ∃ l r : List Char,
          (jsToLower tg).data = l ++ (jsToLower c.query.trim).data ++ r) ∧
  (c.activeTag = "" ∨ c.activeTag ∈ m.tags) ∧
  (c.activeCollection = "" ∨ m.collection = c.activeCollection) ∧
  (c.activeTier = "" ∨ m.tier = c.activeTier) ∧
  (c.favoritesOnly = false ∨ isFav m.favorite = true)

theorem charsStartWith_iff (q : List Char) :
    ∀ s : List Char, charsStartWith q s = true ↔ ∃ r, s = q ++ r := by
  induction q with
  | nil =>
    intro s
    simp [charsStartWith]
  | cons a as ih =>
    intro s
    cases s with
    | nil => simp [charsStartWith]
    | cons b bs =>
      rw [show charsStartWith (a :: as) (b :: bs) = ((a == b) && charsStartWith as bs)
          from rfl]
      constructor
      · intro h
        rw [Bool.and_eq_true] at h
        obtain ⟨r, hr⟩ := (ih bs).mp h.2
        refine ⟨r, ?_⟩
        rw [hr]
        simp [(by simpa using h.1 : a = b).symm]
      · rintro ⟨r, hr⟩
        injection hr with h1 h2
        rw [Bool.and_eq_true]
        exact ⟨by simp [h1], (ih bs).mpr ⟨r, h2⟩⟩

theorem charsContain_iff (q : List Char) :
    ∀ s : List Char, charsContain q s = true ↔ ∃ l r, s = l ++ q ++ r := by
  intro s
  induction s with
  | nil =>
    cases q with
    | nil =>
      constructor
      · intro _
        exact ⟨[], [], rfl⟩
      · intro _
        rfl
    | cons a as =>
      constructor
      · intro h
        exact absurd h (by simp [charsContain, charsStartWith])
      · rintro ⟨l, r, hr⟩
        exfalso
        have hlen := congrArg List.length hr
        simp [List.length_append] at hlen
        omega
  | cons c rest ih =>
    rw [show charsContain q (c :: rest)
        = (charsStartWith q (c :: rest) || charsContain q rest) from rfl]
    rw [Bool.or_eq_true, charsStartWith_iff, ih]
    constructor
    · rintro (⟨r, hr⟩ | ⟨l, r, hr⟩)
      · exact ⟨[], r, by simpa using hr⟩
      · exact ⟨c :: l, r, by simp [hr]⟩
    · rintro ⟨l, r, hr⟩
      cases l with
      | nil =>
        left
        exact ⟨r, by simpa using hr⟩
      | cons c0 l0 =>
        right
        injection hr with h1 h2
        exact ⟨l0, r, h2⟩

/-- The filter predicate agrees with its specification clause-by-clause. -/
theorem matchesFilter_iff (c : FilterCriteria) (m : Card) :
    matchesFilter c m = true ↔ MatchesSpec c m := by
  unfold matchesFilter MatchesSpec jsIncludes
  simp only [Bool.and_eq_true, Bool.or_eq_true, beq_iff_eq, List.any_eq_true,
    charsContain_iff, Bool.not_eq_true', List.elem_iff, or_assoc, and_assoc]

/-- C6: a card is in the filtered output exactly when all five criteria hold
conjunctively (query match on name or a tag, exact tag membership, exact
case-sensitive collection equality, exact tier equality, favorite flag); so
changing any single criterion to a non-matching value excludes the card. -/
theorem filter_conjunction (c : FilterCriteria) (metas : List Card) (m : Card) :
    m ∈ filteredCards c metas ↔ m ∈ metas ∧ MatchesSpec c m := by
  unfold filteredCards
  rw [List.mem_filter, matchesFilter_iff]

/- The grouping pipeline (the `groupedByCollection` memo). -/

/-- The hardcoded default collection list from App.jsx. -/
def DEFAULT_COLLECTIONS : List String :=
  ["Dayseal", "Everflame Mandate", "First Light - Series I",
   "Mooncrown Eclipse - Series I", "Starseal Registry"]

/-- One step of the loop `for (const m of filtered)`: a JS Map keyed by
`m.collection || "(None)"` accumulating member lists; a fresh key is appended
in insertion order, an existing key's bucket is extended. -/
def addToGroups (map : List (String × List Card)) (m : Card) :
    List (String × List Card) :=
  let key := collectionOrNone m.collection
  if map.any (fun p => p.1 == key) then
    map.map (fun p => if p.1 == key then (p.1, p.2 ++ [m]) else p)
  else map ++ [(key, [m])]

def buildGroups (filtered : List Card) : List (String × List Card) :=
  filtered.foldl addToGroups []

/-- The `keys` array assembled by `groupedByCollection`: default collections
present in the map in fixed order, then custom keys sorted by the abstract
locale comparator `lcLe`, then "(None)" if present. -/
def groupedKeys (lcLe : String → String → Bool) (map : List (String × List Card)) :
    List String :=
  let customs := ((map.map Prod.fst).filter (fun k =>
      k != "(None)"
        && !(DEFAULT_COLLECTIONS.any (fun d => jsToLower d == jsToLower k)))).mergeSort lcLe
  (DEFAULT_COLLECTIONS.filter (fun c => map.any (fun p => p.1 == c)))
    ++ customs
    ++ (if map.any (fun p => p.1 == "(None)") then ["(None)"] else [])

/-- Models the `groupedByCollection` memo; `lcLe` abstracts the locale-aware
comparator `(a,b) => a.localeCompare(b)` as the "a sorts no later than b"
test driving the stable JS sort. -/
def groupedByCollection (lcLe : String → String → Bool) (filtered : List Card) :
    List (String × List Card) :=
  let map := buildGroups filtered
  (groupedKeys lcLe map).map (fun n =>
    (n, ((map.find? (fun p => p.1 == n)).map Prod.snd).getD []))

/-- Fold invariant of buildGroups: keys stay pairwise distinct, buckets stay
nonempty, and a key is present exactly when it was present before or some
folded card maps to it. -/
theorem buildGroups_inv (l : List Card) :
    ∀ acc : List (String × List Card),
      (acc.map Prod.fst).Nodup → (∀ p ∈ acc, p.2 ≠ []) →
      ((l.foldl addToGroups acc).map Prod.fst).Nodup ∧
      (∀ p ∈ l.foldl addToGroups acc, p.2 ≠ []) ∧
      (∀ k, k ∈ (l.foldl addToGroups acc).map Prod.fst ↔
          k ∈ acc.map Prod.fst ∨ ∃ m ∈ l, collectionOrNone m.collection = k) := by
  induction l with
  | nil =>
    intro acc h1 h2
    refine ⟨h1, h2, ?_⟩
    simp
  | cons m rest ih =>
    intro acc h1 h2
    rw [List.foldl_cons]
    by_cases hmem : acc.any (fun p => p.1 == collectionOrNone m.collection) = true
    · rw [show addToGroups acc m
          = acc.map (fun p => if p.1 == collectionOrNone m.collection
              then (p.1, p.2 ++ [m]) else p) from by simp [addToGroups, hmem]]
      set acc2 := acc.map (fun p => if p.1 == collectionOrNone m.collection
          then (p.1, p.2 ++ [m]) else p) with hacc2
      have hkeys : acc2.map Prod.fst = acc.map Prod.fst := by
        rw [hacc2, List.map_map]
        apply List.map_congr_left
        intro p hp
        simp only [Function.comp_apply]
        split <;> rfl
      have h1' : (acc2.map Prod.fst).Nodup := by
        rw [hkeys]
        exact h1
      have h2' : ∀ p ∈ acc2, p.2 ≠ [] := by
        intro p hp
        rw [hacc2] at hp
        obtain ⟨p0, hp0, rfl⟩ := List.mem_map.mp hp
        split
        · simp [List.append_eq_nil]
        · exact h2 p0 hp0
      obtain ⟨g1, g2, g3⟩ := ih acc2 h1' h2'
      refine ⟨g1, g2, ?_⟩
      intro k
      rw [g3 k, hkeys]
      have hkmem : collectionOrNone m.collection ∈ acc.map Prod.fst := by
        rw [List.any_eq_true] at hmem
        obtain ⟨p, hp, hpk⟩ := hmem
        have hpe : p.1 = collectionOrNone m.collection := by simpa using hpk
        exact hpe ▸ List.mem_map_of_mem Prod.fst hp
      constructor
      · rintro (h | ⟨m', hm', hk⟩)
        · exact Or.inl h
        · exact Or.inr ⟨m', List.mem_cons_of_mem m hm', hk⟩
      · rintro (h | ⟨m', hm', hk⟩)
        · exact Or.inl h
        · rcases List.mem_cons.mp hm' with rfl | hm2
          · exact Or.inl (hk ▸ hkmem)
          · exact Or.inr ⟨m', hm2, hk⟩
    · rw [show addToGroups acc m = acc ++ [(collectionOrNone m.collection, [m])] from by
        simp [addToGroups, hmem]]
      have h1' : ((acc ++ [(collectionOrNone m.collection, [m])]).map Prod.fst).Nodup := by
        rw [List.map_append, List.nodup_append]
        refine ⟨h1, by simp, ?_⟩
        intro a ha hb
        have hak : a = collectionOrNone m.collection := by simpa using hb
        rw [Bool.not_eq_true, List.any_eq_false] at hmem
        obtain ⟨p, hp, hpa⟩ := List.mem_map.mp ha
        exact hmem p hp (by simp [hpa, hak])
      have h2' : ∀ p ∈ acc ++ [(collectionOrNone m.collection, [m])], p.2 ≠ [] := by
        intro p hp
        rcases List.mem_append.mp hp with h | h
        · exact h2 p h
        · have : p = (collectionOrNone m.collection, [m]) := by simpa using h
          rw [this]
          simp
      obtain ⟨g1, g2, g3⟩ := ih _ h1' h2'
      refine ⟨g1, g2, ?_⟩
      intro k
      rw [g3 k, List.map_append]
      simp only [List.mem_append, List.map_cons, List.map_nil, List.mem_singleton]
      constructor
      · rintro ((h | h) | ⟨m', hm', hk⟩)
        · exact Or.inl h
        · exact Or.inr ⟨m, List.mem_cons_self m rest, h.symm⟩
        · exact Or.inr ⟨m', List.mem_cons_of_mem m hm', hk⟩
      · rintro (h | ⟨m', hm', hk⟩)
        · exact Or.inl (Or.inl h)
        · rcases List.mem_cons.mp hm' with rfl | hm2
          · exact Or.inl (Or.inr hk.symm)
          · exact Or.inr ⟨m', hm2, hk⟩

/-- Presence of a key in the grouping map matches presence of a card with
that (defaulted) collection. -/
theorem buildGroups_any_key (cards : List Card) (col : String) :
    (buildGroups cards).any (fun p => p.1 == col)
      = cards.any (fun m => collectionOrNone m.collection == col) := by
  have hinv := buildGroups_inv cards [] (by simp) (by simp)
  rw [show List.foldl addToGroups ([] : List (String × List Card)) cards
      = buildGroups cards from rfl] at hinv
  obtain ⟨-, -, g3⟩ := hinv
  cases h1 : (buildGroups cards).any (fun p => p.1 == col) with
  | false =>
    cases h2 : cards.any (fun m => collectionOrNone m.collection == col) with
    | false => rfl
    | true =>
      exfalso
      rw [List.any_eq_true] at h2
      obtain ⟨m, hm, hcol⟩ := h2
      have hk : col ∈ (buildGroups cards).map Prod.fst := by
        rw [g3 col]
        exact Or.inr ⟨m, hm, by simpa using hcol⟩
      obtain ⟨p, hp, hpc⟩ := List.mem_map.mp hk
      exact (List.any_eq_false.mp h1) p hp (by simp [hpc])
  | true =>
    rw [List.any_eq_true] at h1
    obtain ⟨p, hp, hpc⟩ := h1
    have hpe : p.1 = col := by simpa using hpc
    have hk : col ∈ (buildGroups cards).map Prod.fst :=
      hpe ▸ List.mem_map_of_mem Prod.fst hp
    rw [g3 col] at hk
    rcases hk with h | ⟨m, hm, hcol⟩
    · simp at h
    · symm
      rw [List.any_eq_true]
      exact ⟨m, hm, by simp [hcol]⟩

/-- Every key emitted by groupedKeys is a key of the grouping map. -/
theorem groupedKeys_any (lcLe : String → String → Bool)
    (map : List (String × List Card)) (n : String) (hn : n ∈ groupedKeys lcLe map) :
    map.any (fun p => p.1 == n) = true := by
  simp only [groupedKeys, List.mem_append] at hn
  rcases hn with (h | h) | h
  · exact (List.mem_filter.mp h).2
  · have h2 := (List.mergeSort_perm _ lcLe).mem_iff.mp h
    have h3 := (List.mem_filter.mp h2).1
    obtain ⟨p, hp, hpn⟩ := List.mem_map.mp h3
    rw [List.any_eq_true]
    exact ⟨p, hp, by simp [hpn]⟩
  · by_cases hc : map.any (fun p => p.1 == "(None)") = true
    · rw [if_pos hc] at h
      have hn' : n = "(None)" := by simpa using h
      rw [hn']
      exact hc
    · rw [if_neg hc] at h
      simp at h

/-- C7: with sort mode none the grouped output lists built-in collections
first (fixed enumeration order, only those with a card after filtering),
then the custom collections of the result set sorted by the locale
comparator, then the "(None)" bucket last (only if some card has no
collection); every emitted bucket is nonempty. -/
theorem grouped_bucket_order (lcLe : String → String → Bool) (cards : List Card)
    (htrans : ∀ a b c, lcLe a b = true → lcLe b c = true → lcLe a c = true)
    (htotal : ∀ a b, (lcLe a b || lcLe b a) = true) :
    ∃ customs : List String,
      (groupedByCollection lcLe cards).map Prod.fst
          = (DEFAULT_COLLECTIONS.filter
              (fun col => cards.any (fun m => collectionOrNone m.collection == col)))
            ++ customs
            ++ (if cards.any (fun m => collectionOrNone m.collection == "(None)")
                then ["(None)"] else []) ∧
      customs.Pairwise (fun a b => lcLe a b = true) ∧
      customs.Nodup ∧
      (∀ k, k ∈ customs ↔
        (∃ m ∈ cards, collectionOrNone m.collection = k) ∧ k ≠ "(None)" ∧
          ∀ d ∈ DEFAULT_COLLECTIONS, jsToLower d ≠ jsToLower k) ∧
      (∀ pr ∈ groupedByCollection lcLe cards, pr.2 ≠ []) := by
  have hinv := buildGroups_inv cards [] (by simp) (by simp)
  rw [show List.foldl addToGroups ([] : List (String × List Card)) cards
      = buildGroups cards from rfl] at hinv
  obtain ⟨g1, g2, g3⟩ := hinv
  refine ⟨(((buildGroups cards).map Prod.fst).filter (fun k =>
      k != "(None)"
        && !(DEFAULT_COLLECTIONS.any (fun d => jsToLower d == jsToLower k)))).mergeSort lcLe,
    ?_, ?_, ?_, ?_, ?_⟩
  · have hfst : (groupedByCollection lcLe cards).map Prod.fst
        = groupedKeys lcLe (buildGroups cards) := by
      simp only [groupedByCollection, List.map_map]
      rw [show (Prod.fst ∘ fun n => (n,
          (((buildGroups cards).find? (fun p => p.1 == n)).map Prod.snd).getD []))
        = id from rfl, List.map_id]
    have hA : DEFAULT_COLLECTIONS.filter
          (fun col => cards.any (fun m => collectionOrNone m.collection == col))
        = DEFAULT_COLLECTIONS.filter
          (fun c => (buildGroups cards).any (fun p => p.1 == c)) := by
      apply List.filter_congr
      intro col hcol
      exact (buildGroups_any_key cards col).symm
    have hN : (if cards.any (fun m => collectionOrNone m.collection == "(None)")
          then ["(None)"] else [])
        = (if (buildGroups cards).any (fun p => p.1 == "(None)")
          then ["(None)"] else ([] : List String)) := by
      rw [buildGroups_any_key cards "(None)"]
    rw [hfst, hA, hN]
    simp only [groupedKeys]
  · exact List.sorted_mergeSort htrans htotal _
  · exact ((List.mergeSort_perm _ lcLe).symm).nodup
      ((List.filter_sublist _).nodup g1)
  · intro k
    rw [(List.mergeSort_perm _ lcLe).mem_iff, List.mem_filter, g3 k]
    simp only [List.not_mem_nil, List.map_nil, false_or, Bool.and_eq_true,
      bne_iff_ne, ne_eq, Bool.not_eq_true', List.any_eq_false, beq_iff_eq]
  · intro pr hpr
    have hpr' : pr ∈ (groupedKeys lcLe (buildGroups cards)).map (fun n =>
        (n, (((buildGroups cards).find? (fun p => p.1 == n)).map Prod.snd).getD [])) := by
      simpa [groupedByCollection] using hpr
    obtain ⟨n, hn, rfl⟩ := List.mem_map.mp hpr'
    have hany := groupedKeys_any lcLe _ n hn
    rw [List.any_eq_true] at hany
    have hsome : ((buildGroups cards).find? (fun p => p.1 == n)).isSome = true :=
      List.find?_isSome.mpr hany
    obtain ⟨p, hp⟩ := Option.isSome_iff_exists.mp hsome
    have hpmem := List.mem_of_find?_eq_some hp
    have hne := g2 p hpmem
    simpa [hp] using hne

/-- A transitive and total comparator used to instantiate the grouping
theorem at a concrete input. -/
def trivLe : String → String → Bool := fun _ _ => true

def cardInDayseal : Card := ⟨"d1", "Dee", [], "Dayseal", "", .undef, 1, 1, 1⟩

def cardInZeta : Card := ⟨"z1", "Zee", [], "Zeta", "", .undef, 2, 2, 1⟩

def cardNoCol : Card := ⟨"n1", "Enn", [], "", "", .undef, 3, 3, 1⟩

def demoCards : List Card := [cardInDayseal, cardInZeta, cardNoCol]

/-- C7 witness: the grouping theorem applied to a concrete card set with one
built-in collection, one custom collection and one uncollected card. -/
theorem grouped_bucket_order_witness :
    ((∀ a b c, trivLe a b = true → trivLe b c = true → trivLe a c = true) ∧
      (∀ a b, (trivLe a b || trivLe b a) = true)) ∧
    (∃ customs : List String,
      (groupedByCollection trivLe demoCards).map Prod.fst
          = (DEFAULT_COLLECTIONS.filter
              (fun col => demoCards.any (fun m => collectionOrNone m.collection == col)))
            ++ customs
            ++ (if demoCards.any (fun m => collectionOrNone m.collection == "(None)")
                then ["(None)"] else []) ∧
      customs.Pairwise (fun a b => trivLe a b = true) ∧
      customs.Nodup ∧
      (∀ k, k ∈ customs ↔
        (∃ m ∈ demoCards, collectionOrNone m.collection = k) ∧ k ≠ "(None)" ∧
          ∀ d ∈ DEFAULT_COLLECTIONS, jsToLower d ≠ jsToLower k) ∧
      (∀ pr ∈ groupedByCollection trivLe demoCards, pr.2 ≠ [])) :=
  ⟨⟨fun _ _ _ _ _ => rfl, fun _ _ => rfl⟩,
    grouped_bucket_order trivLe demoCards (fun _ _ _ _ _ => rfl) (fun _ _ => rfl)⟩

/- The sorting pipeline (the `sorters` table and `sortedFlat` memo). -/

/-- The comparator table `sorters` of App.jsx; name comparisons go through
the abstract locale comparator `lcCmp` (JS localeCompare), numeric modes
subtract timestamps or page counts, and an unknown mode falls back to the
constant-zero comparator `sorters.none`. -/
def sorterCmp (lcCmp : String → String → Int) (mode : String) (a b : Card) : Int :=
  if mode == "name_asc" then lcCmp a.name b.name
  else if mode == "name_desc" then lcCmp b.name a.name
  else if mode == "created_new" then (b.createdAt : Int) - (a.createdAt : Int)
  else if mode == "created_old" then (a.createdAt : Int) - (b.createdAt : Int)
  else if mode == "updated_new" then (b.updatedAt : Int) - (a.updatedAt : Int)
  else if mode == "pages_desc" then (b.pages : Int) - (a.pages : Int)
  else if mode == "pages_asc" then (a.pages : Int) - (b.pages : Int)
  else 0

/-- Models the `sortedFlat` memo: copy the filtered list and stably sort it
with the selected comparator unless the mode is "none". -/
def sortedFlat (lcCmp : String → String → Int) (mode : String)
    (filtered : List Card) : List Card :=
  if mode != "none" then
    filtered.mergeSort (fun a b => decide (sorterCmp lcCmp mode a b ≤ 0))
  else filtered

/-- The Resolve walk is inert on an empty member map. -/
theorem takeSteps_nil_byId (ids : List String) :
    ∀ out : List Card, ids.foldl takeStep (out, []) = (out, []) := by
  induction ids with
  | nil =>
    intro out
    rfl
  | cons i rest ih =>
    intro out
    rw [List.foldl_cons, takeStep_of_none (by simp)]
    exact ih out

/-- C9: the engine functions are total deterministic functions of their
inputs: each returns a unique result on every input; an empty member set
resolves to the empty list; a move on an empty metadata snapshot persists the
empty list for the group key; filtering returns a sublist of its input and
sorting a permutation of its input (also under an unknown sort mode). -/
theorem engines_total (om : OrderMap) (g : String) (items metas : List Card)
    (d t : String) (b : Bool) (mode : String) (lcCmp : String → String → Int)
    (crit : FilterCriteria) :
    (∃! r, orderItemsInGroup om g items = r) ∧
    (∃! r, moveWithinGroup om metas g d t b = r) ∧
    (∃! r, filteredCards crit items = r) ∧
    (∃! r, sortedFlat lcCmp mode items = r) ∧
    orderItemsInGroup om g [] = [] ∧
    (moveWithinGroup om ([] : List Card) g d t b) (keyForCollection g) = [] ∧
    (filteredCards crit items).Sublist items ∧
    (sortedFlat lcCmp mode items).Perm items := by
  refine ⟨⟨_, rfl, fun y hy => hy.symm⟩, ⟨_, rfl, fun y hy => hy.symm⟩,
    ⟨_, rfl, fun y hy => hy.symm⟩, ⟨_, rfl, fun y hy => hy.symm⟩, ?_, ?_, ?_, ?_⟩
  · rw [orderItemsInGroup_eq]
    rw [show mapFromItems [] = [] from rfl, takeSteps_nil_byId]
    simp
  · rw [moveWithinGroup_at_key]
    simp [moveIds, groupMemberIds]
  · exact List.filter_sublist items
  · unfold sortedFlat
    by_cases h : (mode != "none") = true
    · rw [if_pos h]
      exact List.mergeSort_perm items _
    · rw [if_neg h]

end EmpressCards
